import Mathlib

/-!
Verification of the log tailing and trigger-dispatch engine of the
Otternel repository (`src/serverlog/log_watcher.rs`).

Text is modelled as `List Nat` of Unicode scalar values, byte buffers as
`List Nat` of bytes (each `< 256`).  The Rust standard-library boundary
(`std::str::from_utf8`, `String::from_utf16`, `String::from_utf8_lossy`,
`u32::from_str`, `str::lines`) is modelled by executable Lean functions
with the documented semantics of those functions; everything else is a
direct translation of the Rust source.
-/

set_option autoImplicit false

namespace Otternel

/-- A Unicode scalar value: below 0x110000 and not a surrogate.  These are
exactly the code points `std::str::from_utf8` accepts. -/
def ValidScalar (c : Nat) : Prop :=
  c < 0x110000 ∧ (c < 0xD800 ∨ 0xE000 ≤ c)

instance (c : Nat) : Decidable (ValidScalar c) := by
  unfold ValidScalar; infer_instance

/-- Standard UTF-8 encoding of one scalar value (1 to 4 bytes). -/
def utf8EncodeChar (c : Nat) : List Nat :=
  if c < 0x80 then [c]
  else if c < 0x800 then [0xC0 + c / 64, 0x80 + c % 64]
  else if c < 0x10000 then [0xE0 + c / 4096, 0x80 + c / 64 % 64, 0x80 + c % 64]
  else [0xF0 + c / 262144, 0x80 + c / 4096 % 64, 0x80 + c / 64 % 64, 0x80 + c % 64]

/-- UTF-8 encoding of a sequence of scalar values. -/
def utf8Encode : List Nat → List Nat
  | [] => []
  | c :: cs => utf8EncodeChar c ++ utf8Encode cs

/-- Decode one 2-byte UTF-8 sequence (lead byte `0xC2..=0xDF`):
the continuation byte must be `0x80..=0xBF`. -/
def utf8Step2 (b : Nat) (rest : List Nat) : Option (Nat × List Nat) :=
  match rest with
  | b1 :: rest1 =>
    if 0x80 ≤ b1 ∧ b1 < 0xC0 then some ((b - 0xC0) * 64 + (b1 - 0x80), rest1) else none
  | [] => none

/-- Decode one 3-byte UTF-8 sequence (lead byte `0xE0..=0xEF`): two
continuation bytes, and the decoded value must be in `0x800..` and not a
surrogate (this value-range check is the same validation Rust expresses
as a table of admissible second bytes per lead byte). -/
def utf8Step3 (b : Nat) (rest : List Nat) : Option (Nat × List Nat) :=
  match rest with
  | b1 :: b2 :: rest2 =>
    if 0x80 ≤ b1 ∧ b1 < 0xC0 ∧ 0x80 ≤ b2 ∧ b2 < 0xC0 then
      let c := (b - 0xE0) * 4096 + (b1 - 0x80) * 64 + (b2 - 0x80)
      if 0x800 ≤ c ∧ (c < 0xD800 ∨ 0xE000 ≤ c) then some (c, rest2) else none
    else none
  | _ => none

/-- Decode one 4-byte UTF-8 sequence (lead byte `0xF0..=0xF4`): three
continuation bytes, and the decoded value must be in
`0x10000..=0x10FFFF`. -/
def utf8Step4 (b : Nat) (rest : List Nat) : Option (Nat × List Nat) :=
  match rest with
  | b1 :: b2 :: b3 :: rest3 =>
    if 0x80 ≤ b1 ∧ b1 < 0xC0 ∧ 0x80 ≤ b2 ∧ b2 < 0xC0 ∧ 0x80 ≤ b3 ∧ b3 < 0xC0 then
      let c := (b - 0xF0) * 262144 + (b1 - 0x80) * 4096 + (b2 - 0x80) * 64 + (b3 - 0x80)
      if 0x10000 ≤ c ∧ c < 0x110000 then some (c, rest3) else none
    else none
  | _ => none

/-- Decode one scalar value from the front of a byte list: returns the
scalar and the unconsumed bytes, or `none` on empty input or any invalid
sequence (overlong lead bytes `0xC0`/`0xC1`, lead bytes `≥ 0xF5`, bad
continuation bytes, surrogates, values above `0x10FFFF`). -/
def utf8DecodeStep (l : List Nat) : Option (Nat × List Nat) :=
  match l with
  | [] => none
  | b :: rest =>
    if b < 0x80 then some (b, rest)
    else if b < 0xC2 then none
    else if b < 0xE0 then utf8Step2 b rest
    else if b < 0xF0 then utf8Step3 b rest
    else if b < 0xF5 then utf8Step4 b rest
    else none

/-- Iterate `utf8DecodeStep`; the fuel bounds the number of scalars and
is in practice the byte length, which always suffices because every
step consumes at least one byte. -/
def utf8DecodeLoop : Nat → List Nat → Option (List Nat)
  | _, [] => some []
  | 0, _ :: _ => none
  | Nat.succ fuel, b :: rest =>
    match utf8DecodeStep (b :: rest) with
    | some (c, rest1) => Option.map (fun s => c :: s) (utf8DecodeLoop fuel rest1)
    | none => none

/-- Model of `std::str::from_utf8`: strict UTF-8 validation/decoding,
returning the scalar values on success and `none` on any invalid input. -/
def utf8Decode? (l : List Nat) : Option (List Nat) :=
  utf8DecodeLoop l.length l

/-- Whether the lead/second byte pair of a 3-byte sequence is permitted
(the table from the WHATWG / Rust `Utf8Error` classification). -/
def utf8Second3 (b b1 : Nat) : Prop :=
  (b = 0xE0 ∧ 0xA0 ≤ b1 ∧ b1 < 0xC0) ∨
  (0xE1 ≤ b ∧ b ≤ 0xEC ∧ 0x80 ≤ b1 ∧ b1 < 0xC0) ∨
  (b = 0xED ∧ 0x80 ≤ b1 ∧ b1 < 0xA0) ∨
  (0xEE ≤ b ∧ b ≤ 0xEF ∧ 0x80 ≤ b1 ∧ b1 < 0xC0)

instance (b b1 : Nat) : Decidable (utf8Second3 b b1) := by
  unfold utf8Second3; infer_instance

/-- Whether the lead/second byte pair of a 4-byte sequence is permitted. -/
def utf8Second4 (b b1 : Nat) : Prop :=
  (b = 0xF0 ∧ 0x90 ≤ b1 ∧ b1 < 0xC0) ∨
  (0xF1 ≤ b ∧ b ≤ 0xF3 ∧ 0x80 ≤ b1 ∧ b1 < 0xC0) ∨
  (b = 0xF4 ∧ 0x80 ≤ b1 ∧ b1 < 0x90)

instance (b b1 : Nat) : Decidable (utf8Second4 b b1) := by
  unfold utf8Second4; infer_instance

/-- Model of `String::from_utf8_lossy`: decode maximal valid sequences,
and emit one U+FFFD replacement character per maximal invalid subpart
(the WHATWG substitution algorithm Rust implements). -/
def utf8Lossy (l : List Nat) : List Nat :=
  match l with
  | [] => []
  | b :: rest =>
    if b < 0x80 then b :: utf8Lossy rest
    else if b < 0xC2 then 0xFFFD :: utf8Lossy rest
    else if b < 0xE0 then
      match rest with
      | b1 :: rest1 =>
        if 0x80 ≤ b1 ∧ b1 < 0xC0 then
          ((b - 0xC0) * 64 + (b1 - 0x80)) :: utf8Lossy rest1
        else 0xFFFD :: utf8Lossy (b1 :: rest1)
      | [] => [0xFFFD]
    else if b < 0xF0 then
      match rest with
      | b1 :: rest1 =>
        if utf8Second3 b b1 then
          match rest1 with
          | b2 :: rest2 =>
            if 0x80 ≤ b2 ∧ b2 < 0xC0 then
              ((b - 0xE0) * 4096 + (b1 - 0x80) * 64 + (b2 - 0x80)) :: utf8Lossy rest2
            else 0xFFFD :: utf8Lossy (b2 :: rest2)
          | [] => [0xFFFD]
        else 0xFFFD :: utf8Lossy (b1 :: rest1)
      | [] => [0xFFFD]
    else if b < 0xF5 then
      match rest with
      | b1 :: rest1 =>
        if utf8Second4 b b1 then
          match rest1 with
          | b2 :: rest2 =>
            if 0x80 ≤ b2 ∧ b2 < 0xC0 then
              match rest2 with
              | b3 :: rest3 =>
                if 0x80 ≤ b3 ∧ b3 < 0xC0 then
                  ((b - 0xF0) * 262144 + (b1 - 0x80) * 4096 + (b2 - 0x80) * 64 + (b3 - 0x80))
                    :: utf8Lossy rest3
                else 0xFFFD :: utf8Lossy (b3 :: rest3)
              | [] => [0xFFFD]
            else 0xFFFD :: utf8Lossy (b2 :: rest2)
          | [] => [0xFFFD]
        else 0xFFFD :: utf8Lossy (b1 :: rest1)
      | [] => [0xFFFD]
    else 0xFFFD :: utf8Lossy rest
termination_by l.length
decreasing_by all_goals (simp_wf <;> omega)

/-- Pair up bytes as little-endian 16-bit code units, ignoring a trailing
odd byte — the semantics of `chunks_exact(2)` with `u16::from_le_bytes`. -/
def toU16LE : List Nat → List Nat
  | a :: b :: rest => (a + b * 256) :: toU16LE rest
  | _ => []

/-- Drop the trailing byte when the length is odd (`slice.len() % 2 != 0`
branch of `decode_log_bytes`). -/
def dropOddByte (l : List Nat) : List Nat :=
  if l.length % 2 ≠ 0 then l.dropLast else l

/-- Strip a leading UTF-16LE byte-order mark: the source checks
`slice.len() >= 2 && slice[0] == 0xFF && slice[1] == 0xFE`. -/
def stripBom (bytes : List Nat) : List Nat :=
  match bytes with
  | 255 :: 254 :: rest => rest
  | _ => bytes

/-- Model of `String::from_utf16`: combine surrogate pairs, fail on an
unpaired surrogate. -/
def utf16Decode? : List Nat → Option (List Nat)
  | [] => some []
  | u :: rest =>
    if u < 0xD800 ∨ 0xE000 ≤ u then
      Option.map (fun s => u :: s) (utf16Decode? rest)
    else if u < 0xDC00 then
      match rest with
      | u2 :: rest2 =>
        if 0xDC00 ≤ u2 ∧ u2 < 0xE000 then
          Option.map (fun s => (0x10000 + (u - 0xD800) * 0x400 + (u2 - 0xDC00)) :: s)
            (utf16Decode? rest2)
        else none
      | [] => none
    else none

/-- Translation of `decode_log_bytes` (log_watcher.rs lines 32-54):
empty input gives the empty string; valid UTF-8 is returned as is;
otherwise strip a UTF-16LE BOM, return the empty string when fewer than
2 bytes remain, drop a trailing odd byte, decode as UTF-16LE code units,
and fall back to a lossy UTF-8 decoding of the original bytes when the
UTF-16 decoding fails. -/
def decodeLogBytes (bytes : List Nat) : List Nat :=
  if bytes.isEmpty then []
  else
    match utf8Decode? bytes with
    | some s => s
    | none =>
      let slice := stripBom bytes
      if slice.length < 2 then []
      else
        match utf16Decode? (toU16LE (dropOddByte slice)) with
        | some s => s
        | none => utf8Lossy bytes

/-! ### Line splitting (`str::lines`) and the last-line extraction policy -/

/-- Model of `str::split_inclusive('\n')`: cut the text after every
newline (code point 10), each segment keeping its newline; a final
segment without a newline is kept, and the empty text yields no segment. -/
def splitInclusiveNl : List Nat → List (List Nat)
  | [] => []
  | c :: rest =>
    if c = 10 then [c] :: splitInclusiveNl rest
    else
      match splitInclusiveNl rest with
      | [] => [[c]]
      | seg :: segs => (c :: seg) :: segs

/-- The per-segment map of `str::lines`: strip one trailing `\n`, and when
one was stripped also strip one trailing `\r`; a segment with no trailing
newline is returned unchanged. -/
def stripLineEnd (seg : List Nat) : List Nat :=
  match seg.reverse with
  | 10 :: 13 :: r => r.reverse
  | 10 :: r => r.reverse
  | _ => seg

/-- Model of `str::lines`. -/
def rustLines (s : List Nat) : List (List Nat) :=
  (splitInclusiveNl s).map stripLineEnd

/-- `buf.ends_with('\n') || buf.ends_with("\r\n")` from `read_new`
(the second disjunct already implies the first). -/
def endsWithNewline (buf : List Nat) : Bool :=
  buf.getLast? == some 10 ||
    (match buf.reverse with
     | 10 :: 13 :: _ => true
     | _ => false)

/-- The candidate-line selection of `read_new` (log_watcher.rs lines
235-242): iterate the lines in reverse; when the chunk ends with a
newline take the first (`lines.next()`), otherwise skip the trailing
partial segment and take the second (`lines.nth(1)`). -/
def extractLine (buf : List Nat) : Option (List Nat) :=
  let revLines := (rustLines buf).reverse
  if endsWithNewline buf then revLines.head? else revLines[1]?

/-! ### SourceId parsing (`u32::from_str` on the file stem) -/

/-- Model of `str::parse::<u32>()`: an optional leading `+`, then at
least one ASCII digit and nothing else, with the value below `2^32`
(the accumulator grows monotonically, so checking the final value is
equivalent to Rust's per-step overflow check). -/
def parseU32 (s : List Nat) : Option Nat :=
  let body := match s with
    | 43 :: rest => rest
    | _ => s
  if body.isEmpty then none
  else if body.all (fun d => decide (48 ≤ d ∧ d ≤ 57)) then
    let v := body.foldl (fun a d => a * 10 + (d - 48)) 0
    if v < 4294967296 then some v else none
  else none

/-! ### Trigger registry -/

/-- A compiled trigger `(Regex, String, Option<Vec<u32>>)`: the compiled
regular expression is modelled at its interface, a total match predicate
on lines, the `regex` crate being external to the repository. -/
abbrev CompiledTrigger : Type :=
  (List Nat → Bool) × String × Option (List Nat)

/-- A raw `[[trigger]]` record of `triggers.toml` as deserialized in
`watch_serverlogs` (log_watcher.rs line 95). -/
structure RawTrigger where
  name : Option String
  pattern : String
  function : String
  serverlog_ids : Option (List Nat)

/-- The compilation loop of `watch_serverlogs` (lines 102-113): compile
each pattern independently, keep the successes in order, drop an entry
whose pattern does not compile.  `compile` models `Regex::new`
(`some` = `Ok`). -/
def compileTriggers (compile : String → Option (List Nat → Bool)) :
    List RawTrigger → List CompiledTrigger
  | [] => []
  | t :: rest =>
    match compile t.pattern with
    | some re => (re, t.function, t.serverlog_ids) :: compileTriggers compile rest
    | none => compileTriggers compile rest

/-- Trigger loading (lines 99-118): `config` is `some records` when
`triggers.toml` was read and parsed, `none` when it was missing or
unparsable; the closure's `None` case degrades to the empty list. -/
def loadTriggers (compile : String → Option (List Nat → Bool))
    (config : Option (List RawTrigger)) : List CompiledTrigger :=
  match config with
  | some ts => compileTriggers compile ts
  | none => []

/-! ### Offset store -/

/-- The `HashMap<PathBuf, u64>` of read offsets, keyed by the watched
file's base name (within one watched directory of `.log` files the stem
identifies the path). -/
abbrev PosMap : Type :=
  List (List Nat × Nat)

/-- `positions.get(path)`. -/
def lookupPos (ps : PosMap) (p : List Nat) : Option Nat :=
  match ps with
  | [] => none
  | (q, v) :: rest => if q = p then some v else lookupPos rest p

/-- `positions.insert(path, v)`: replace the existing entry or append. -/
def insertPos (ps : PosMap) (p : List Nat) (v : Nat) : PosMap :=
  match ps with
  | [] => [(p, v)]
  | (q, w) :: rest => if q = p then (p, v) :: rest else (q, w) :: insertPos rest p v

/-! ### Tailer and dispatch -/

/-- One dispatched action call `(function, line, serverlog_id)`. -/
abbrev DispatchCall : Type :=
  String × List Nat × Nat

/-- `ids_opt.as_ref().map(|ids| ids.contains(&id)).unwrap_or(true)`
(line 251): an absent scope matches every source. -/
def inScope (idsOpt : Option (List Nat)) (id : Nat) : Bool :=
  (idsOpt.map (fun ids => ids.contains id)).getD true

/-- The trigger loop of `read_new` (lines 249-255): every trigger whose
pattern matches the line and whose scope admits the source id produces
one dispatch, in list order, with no short-circuit. -/
def dispatchMatches (triggers : List CompiledTrigger) (line : List Nat) (id : Nat) :
    List DispatchCall :=
  match triggers with
  | [] => []
  | (re, func, idsOpt) :: rest =>
    (if re line then
      (if inScope idsOpt id then [(func, line, id)] else [])
     else []) ++ dispatchMatches rest line id

/-- `positions.insert(path, 0)` when the file shrank below the stored
offset (truncation/rotation, lines 209-213). -/
def truncAdjust (stem : List Nat) (len : Nat) (positions : PosMap) : PosMap :=
  if len < (lookupPos positions stem).getD 0 then insertPos positions stem 0 else positions

/-- The offset `read_new` seeks to: the stored offset after the
truncation check (line 216). -/
def readStart (stem : List Nat) (len : Nat) (positions : PosMap) : Nat :=
  (lookupPos (truncAdjust stem len positions) stem).getD 0

/-- Translation of `read_new` (log_watcher.rs lines 202-264) on a file
whose current contents are `contents`: adjust the offset on truncation,
read from the adjusted offset to end of file, decode, extract at most one
candidate line, dispatch it when the stem parses as a `u32`, and store
the end-of-read position.  Returns the updated offset store and the
dispatch calls made. -/
def readNew (stem : List Nat) (contents : List Nat) (positions : PosMap)
    (triggers : List CompiledTrigger) : PosMap × List DispatchCall :=
  let len := contents.length
  let positions1 := truncAdjust stem len positions
  let start := readStart stem len positions
  let bytes := contents.drop start
  let buf := decodeLogBytes bytes
  let calls :=
    if buf.isEmpty then []
    else
      match parseU32 stem, extractLine buf with
      | some id, some line => dispatchMatches triggers line id
      | _, _ => []
  (insertPos positions1 stem (start + bytes.length), calls)

/-! ### Concrete values used by closed instances -/

/-- A compiled pattern matching every line. -/
def matchAll : List Nat → Bool := fun _ => true

/-- A pattern compiler accepting only the pattern `"ok"` (a stand-in for
`Regex::new` succeeding on one source and failing on another). -/
def compileOnlyOk : String → Option (List Nat → Bool) :=
  fun p => if p = "ok" then some matchAll else none

/-- A trigger record whose pattern compiles under `compileOnlyOk`. -/
def triggerOk : RawTrigger :=
  { name := none, pattern := "ok", function := "fok", serverlog_ids := none }

/-- A trigger record whose pattern does not compile under `compileOnlyOk`. -/
def triggerBad : RawTrigger :=
  { name := some "bad", pattern := "(", function := "fbad", serverlog_ids := none }

/-! ### Helper lemmas -/

/-- Looking up a key right after inserting it. -/
theorem lookupPos_insertPos (ps : PosMap) (p : List Nat) (v : Nat) :
    lookupPos (insertPos ps p v) p = some v := by
  induction ps with
  | nil => simp [insertPos, lookupPos]
  | cons qw rest ih =>
    obtain ⟨q, w⟩ := qw
    by_cases h : q = p
    · simp [insertPos, lookupPos, h]
    · simp [insertPos, lookupPos, h, ih]

/-- The adjusted read offset never exceeds the file length. -/
theorem readStart_le (stem : List Nat) (len : Nat) (ps : PosMap) :
    readStart stem len ps ≤ len := by
  unfold readStart truncAdjust
  by_cases h : len < (lookupPos ps stem).getD 0
  · rw [if_pos h, lookupPos_insertPos]
    exact Nat.zero_le len
  · rw [if_neg h]
    omega

/-- After any `read_new`, the stored offset for the file equals its
length at read time. -/
theorem readNew_storedOffset (stem c : List Nat) (ps : PosMap) (ts : List CompiledTrigger) :
    lookupPos (readNew stem c ps ts).1 stem = some c.length := by
  have hle := readStart_le stem c.length ps
  simp only [readNew, List.length_drop]
  rw [lookupPos_insertPos]
  congr 1
  omega

/-- A `read_new` whose stored offset already equals the file length
reads no bytes and dispatches nothing. -/
theorem readNew_noNewData (stem c : List Nat) (ps : PosMap) (ts : List CompiledTrigger)
    (h : lookupPos ps stem = some c.length) :
    (readNew stem c ps ts).2 = [] := by
  have ht : truncAdjust stem c.length ps = ps := by
    unfold truncAdjust
    rw [h]
    simp
  have hs : readStart stem c.length ps = c.length := by
    unfold readStart
    rw [ht, h]
    rfl
  simp [readNew, hs, List.drop_length, decodeLogBytes]

/-! ### Claim theorems -/

/-- C1 (counterexample): for the non-numeric stem `"s"` and chunk
`"x\n"`, a candidate line `"x"` is extracted and an unscoped trigger
matches it, yet `read_new` dispatches nothing — dispatch requires a
parsed SourceId, so unscoped triggers do not fire either. -/
theorem readNew_unparsedStem_counterexample :
    parseU32 [115] = none ∧
    extractLine (decodeLogBytes [120, 10]) = some [120] ∧
    matchAll [120] = true ∧
    (readNew [115] [120, 10] [] [(matchAll, "f", none)]).2 = [] := by
  refine ⟨rfl, rfl, rfl, rfl⟩

/-- C1 (amended): when the file's stem does not parse as a numeric
SourceId, the file is still tailed — its stored offset is advanced to
the end of file — but no trigger fires at all, scoped or unscoped. -/
theorem readNew_unparsedStem (stem c : List Nat) (ps : PosMap) (ts : List CompiledTrigger)
    (h : parseU32 stem = none) :
    (readNew stem c ps ts).2 = [] ∧
    lookupPos (readNew stem c ps ts).1 stem = some c.length := by
  refine ⟨?_, readNew_storedOffset stem c ps ts⟩
  by_cases hb : (decodeLogBytes (c.drop (readStart stem c.length ps))).isEmpty
  · simp [readNew, hb]
  · simp [readNew, hb, h]

/-- Witness for `readNew_unparsedStem` at stem `"s"`, chunk `"x\n"`. -/
theorem readNew_unparsedStem_witness :
    parseU32 [115] = none ∧
    (readNew [115] [120, 10] [] []).2 = [] ∧
    lookupPos (readNew [115] [120, 10] [] []).1 [115] = some 2 := by
  exact ⟨rfl, (readNew_unparsedStem [115] [120, 10] [] [] rfl).1,
    (readNew_unparsedStem [115] [120, 10] [] [] rfl).2⟩

/-- C2: on the byte `0xFF` alone — not valid UTF-8, no BOM, fewer than
2 bytes — `decode_log_bytes` returns the empty string, while the lossy
UTF-8 decoding of the original bytes is the replacement character
U+FFFD; the two disagree, so the documented lossy fallback is not what
the code does on this input. -/
theorem decode_shortInvalid_empty :
    decodeLogBytes [255] = [] ∧
    utf8Lossy [255] = [0xFFFD] ∧
    decodeLogBytes [255] ≠ utf8Lossy [255] := by
  have h1 : decodeLogBytes [255] = [] := rfl
  have h2 : utf8Lossy [255] = [0xFFFD] := by simp [utf8Lossy]
  refine ⟨h1, h2, ?_⟩
  rw [h1, h2]
  simp

/-- C4: if the file's length is below the stored offset, the read
starts from offset 0 (the truncation/rotation reset), and after every
`read_new` the stored offset equals the file's length at read time, so
a stale offset never survives a read cycle. -/
theorem readNew_offsetInvariant (stem c : List Nat) (ps : PosMap) (ts : List CompiledTrigger) :
    (c.length < (lookupPos ps stem).getD 0 → readStart stem c.length ps = 0) ∧
    lookupPos (readNew stem c ps ts).1 stem = some c.length := by
  constructor
  · intro h
    unfold readStart truncAdjust
    rw [if_pos h, lookupPos_insertPos]
    rfl
  · exact readNew_storedOffset stem c ps ts

/-- Witness for `readNew_offsetInvariant`: stem `"1"`, a 2-byte file
with a stale stored offset of 5. -/
theorem readNew_offsetInvariant_witness :
    ((2 : Nat) < (lookupPos [([49], 5)] [49]).getD 0 → readStart [49] 2 [([49], 5)] = 0) ∧
    readStart [49] 2 [([49], 5)] = 0 ∧
    lookupPos (readNew [49] [97, 10] [([49], 5)] []).1 [49] = some 2 := by
  refine ⟨(readNew_offsetInvariant [49] [97, 10] [([49], 5)] []).1, ?_,
    (readNew_offsetInvariant [49] [97, 10] [([49], 5)] []).2⟩
  exact (readNew_offsetInvariant [49] [97, 10] [([49], 5)] []).1 (by decide)

/-- C9: a `read_new` on a file with no prior stored offset stores the
file's length L; a second `read_new` with the file unchanged dispatches
nothing and leaves the stored offset at L. -/
theorem readNew_fresh_then_quiescent (stem c : List Nat) (ps : PosMap)
    (ts : List CompiledTrigger) (h : lookupPos ps stem = none) :
    lookupPos (readNew stem c ps ts).1 stem = some c.length ∧
    (readNew stem c (readNew stem c ps ts).1 ts).2 = [] ∧
    lookupPos (readNew stem c (readNew stem c ps ts).1 ts).1 stem = some c.length := by
  refine ⟨readNew_storedOffset stem c ps ts, ?_, readNew_storedOffset stem c _ ts⟩
  exact readNew_noNewData stem c _ ts (readNew_storedOffset stem c ps ts)

/-- Witness for `readNew_fresh_then_quiescent`: stem `"5"`, chunk
`"a\n"`, empty offset store. -/
theorem readNew_fresh_then_quiescent_witness :
    lookupPos [] [53] = none ∧
    lookupPos (readNew [53] [97, 10] [] []).1 [53] = some 2 ∧
    (readNew [53] [97, 10] (readNew [53] [97, 10] [] []).1 []).2 = [] ∧
    lookupPos (readNew [53] [97, 10] (readNew [53] [97, 10] [] []).1 []).1 [53] = some 2 := by
  refine ⟨rfl, ?_, ?_, ?_⟩
  · exact (readNew_fresh_then_quiescent [53] [97, 10] [] [] rfl).1
  · exact (readNew_fresh_then_quiescent [53] [97, 10] [] [] rfl).2.1
  · exact (readNew_fresh_then_quiescent [53] [97, 10] [] [] rfl).2.2

/-- C6: the trigger loop dispatches exactly the triggers whose pattern
matches the line and whose scope admits the source id, one call per such
trigger in order (no first-match short-circuit), and the number of calls
is the count of such triggers; a trigger whose scope excludes the id
contributes nothing even when its pattern matches. -/
theorem dispatchMatches_characterization (ts : List CompiledTrigger) (line : List Nat) (id : Nat) :
    dispatchMatches ts line id =
      (ts.filter (fun t => t.1 line && inScope t.2.2 id)).map (fun t => (t.2.1, line, id)) ∧
    (dispatchMatches ts line id).length =
      ts.countP (fun t => t.1 line && inScope t.2.2 id) := by
  have key : dispatchMatches ts line id =
      (ts.filter (fun t => t.1 line && inScope t.2.2 id)).map (fun t => (t.2.1, line, id)) := by
    induction ts with
    | nil => rfl
    | cons t rest ih =>
      obtain ⟨re, func, idsOpt⟩ := t
      by_cases h1 : re line
      · by_cases h2 : inScope idsOpt id
        · simp [dispatchMatches, List.filter, h1, h2, ih]
        · simp [dispatchMatches, List.filter, h1, h2, ih]
      · simp [dispatchMatches, List.filter, h1, ih]
  refine ⟨key, ?_⟩
  rw [key, List.length_map, List.countP_eq_length_filter]

/-- C10: an empty candidate line is a real candidate: chunk `"\n"` and
chunk `"x\n\n"` both extract the empty line, and `read_new` forwards it
to the trigger loop, so a trigger matching the empty string fires. -/
theorem readNew_emptyCandidate_dispatched :
    extractLine [10] = some [] ∧
    extractLine [120, 10, 10] = some [] ∧
    (readNew [49] [10] [] [(matchAll, "f", none)]).2 = [("f", [], 1)] := by
  refine ⟨rfl, rfl, rfl⟩

/-- C5: trigger loading never fails: a missing or unparsable
configuration yields the empty trigger list; an entry whose pattern does
not compile is discarded and exactly the other entries are compiled; and
when every pattern compiles no entry is lost. -/
theorem loadTriggers_total :
    (∀ compile : String → Option (List Nat → Bool), loadTriggers compile none = []) ∧
    (∀ (compile : String → Option (List Nat → Bool)) (ts1 : List RawTrigger) (t : RawTrigger)
        (ts2 : List RawTrigger), compile t.pattern = none →
      loadTriggers compile (some (ts1 ++ t :: ts2)) = loadTriggers compile (some (ts1 ++ ts2))) ∧
    (∀ (compile : String → Option (List Nat → Bool)) (ts : List RawTrigger),
        (∀ t ∈ ts, (compile t.pattern).isSome) →
      (loadTriggers compile (some ts)).length = ts.length) := by
  refine ⟨fun _ => rfl, ?_, ?_⟩
  · intro compile ts1 t ts2 h
    induction ts1 with
    | nil => simp [loadTriggers, compileTriggers, h]
    | cons u rest ih =>
      simp only [loadTriggers] at ih ⊢
      simp only [List.cons_append, compileTriggers]
      cases hc : compile u.pattern with
      | none =>
        dsimp only
        simp only [List.append_eq]
        exact ih
      | some re =>
        dsimp only
        simp only [List.append_eq]
        rw [ih]
  · intro compile ts h
    induction ts with
    | nil => rfl
    | cons t rest ih =>
      have ht := h t (by simp)
      cases hc : compile t.pattern with
      | none => rw [hc] at ht; simp at ht
      | some re =>
        simp only [loadTriggers, compileTriggers, hc, List.length_cons]
        have := ih (fun u hu => h u (by simp [hu]))
        simp only [loadTriggers] at this
        rw [this]

/-- Witness for `loadTriggers_total`: a bad entry between two good ones
under `compileOnlyOk`, and a single-good-entry load losing nothing. -/
theorem loadTriggers_total_witness :
    loadTriggers compileOnlyOk none = [] ∧
    compileOnlyOk triggerBad.pattern = none ∧
    loadTriggers compileOnlyOk (some ([triggerOk] ++ triggerBad :: [triggerOk])) =
      loadTriggers compileOnlyOk (some ([triggerOk] ++ [triggerOk])) ∧
    (∀ t ∈ [triggerOk], (compileOnlyOk t.pattern).isSome) ∧
    (loadTriggers compileOnlyOk (some [triggerOk])).length = 1 := by
  have hbad : compileOnlyOk triggerBad.pattern = none := rfl
  have hok : ∀ t ∈ [triggerOk], (compileOnlyOk t.pattern).isSome := by
    intro t ht
    rw [List.mem_singleton] at ht
    subst ht
    rfl
  refine ⟨loadTriggers_total.1 compileOnlyOk, hbad, ?_, hok, ?_⟩
  · exact loadTriggers_total.2.1 compileOnlyOk [triggerOk] triggerBad [triggerOk] hbad
  · exact loadTriggers_total.2.2 compileOnlyOk [triggerOk] hok

/-- `l.reverse[1]?` is the last element of `l` without its final
element: the "line immediately before the trailing partial segment". -/
theorem getElemOneReverse {α : Type} (l : List α) :
    l.reverse[1]? = l.dropLast.getLast? := by
  induction l using List.reverseRecOn with
  | nil => rfl
  | append_singleton ys y _ =>
    rw [List.reverse_append]
    simp only [List.reverse_cons, List.reverse_nil, List.nil_append, List.cons_append,
      List.getElem?_cons_succ, List.dropLast_concat]
    rw [← List.head?_eq_getElem?, List.head?_reverse]

/-- C3: the last-line policy: a chunk ending in a newline yields its
last line (`"a\nb\nc\n"` yields `"c"`); a chunk not ending in a newline
yields the line before the trailing partial segment (`"a\nb\nc"` yields
`"b"`, and in general the last line once the partial tail is dropped,
which is nothing when the chunk is a single partial line, e.g. `"a"`). -/
theorem extractLine_policy :
    extractLine [97, 10, 98, 10, 99, 10] = some [99] ∧
    extractLine [97, 10, 98, 10, 99] = some [98] ∧
    extractLine [97] = none ∧
    (∀ buf, endsWithNewline buf = true → extractLine buf = (rustLines buf).getLast?) ∧
    (∀ buf, endsWithNewline buf = false →
      extractLine buf = (rustLines buf).dropLast.getLast?) := by
  refine ⟨rfl, rfl, rfl, ?_, ?_⟩
  · intro buf h
    unfold extractLine
    rw [h]
    simp only [if_true, List.head?_reverse]
  · intro buf h
    unfold extractLine
    rw [h]
    simp only [Bool.false_eq_true, if_false]
    exact getElemOneReverse (rustLines buf)

/-- Witness for `extractLine_policy`: the general clauses at the chunks
`"a\n"` and `"a"`. -/
theorem extractLine_policy_witness :
    endsWithNewline [97, 10] = true ∧
    extractLine [97, 10] = (rustLines [97, 10]).getLast? ∧
    endsWithNewline [97] = false ∧
    extractLine [97] = (rustLines [97]).dropLast.getLast? := by
  refine ⟨by decide, extractLine_policy.2.2.2.1 [97, 10] (by decide), by decide,
    extractLine_policy.2.2.2.2 [97] (by decide)⟩

/-- The UTF-8 encoding of a scalar value is never empty. -/
theorem utf8EncodeChar_ne_nil (c : Nat) : utf8EncodeChar c ≠ [] := by
  unfold utf8EncodeChar
  split_ifs <;> simp

/-- Stepping the decoder on the UTF-8 encoding of one valid scalar
consumes exactly that encoding and yields the scalar back. -/
theorem utf8DecodeStep_encodeChar (c : Nat) (h : ValidScalar c) (rest : List Nat) :
    utf8DecodeStep (utf8EncodeChar c ++ rest) = some (c, rest) := by
  obtain ⟨hlt, hsur⟩ := h
  by_cases h1 : c < 0x80
  · rw [utf8EncodeChar, if_pos h1]
    simp only [List.cons_append, List.nil_append]
    simp only [utf8DecodeStep]
    rw [if_pos h1]
  · by_cases h2 : c < 0x800
    · rw [utf8EncodeChar, if_neg h1, if_pos h2]
      simp only [List.cons_append, List.nil_append]
      simp only [utf8DecodeStep, utf8Step2]
      rw [if_neg (by omega : ¬(0xC0 + c / 64 < 0x80)),
        if_neg (by omega : ¬(0xC0 + c / 64 < 0xC2)),
        if_pos (by omega : 0xC0 + c / 64 < 0xE0),
        if_pos (by omega : 0x80 ≤ 0x80 + c % 64 ∧ 0x80 + c % 64 < 0xC0)]
      have hv : (0xC0 + c / 64 - 0xC0) * 64 + (0x80 + c % 64 - 0x80) = c := by omega
      rw [hv]
    · by_cases h3 : c < 0x10000
      · rw [utf8EncodeChar, if_neg h1, if_neg h2, if_pos h3]
        simp only [List.cons_append, List.nil_append]
        simp only [utf8DecodeStep, utf8Step3]
        rw [if_neg (by omega : ¬(0xE0 + c / 4096 < 0x80)),
          if_neg (by omega : ¬(0xE0 + c / 4096 < 0xC2)),
          if_neg (by omega : ¬(0xE0 + c / 4096 < 0xE0)),
          if_pos (by omega : 0xE0 + c / 4096 < 0xF0),
          if_pos (by omega : 0x80 ≤ 0x80 + c / 64 % 64 ∧ 0x80 + c / 64 % 64 < 0xC0 ∧
            0x80 ≤ 0x80 + c % 64 ∧ 0x80 + c % 64 < 0xC0)]
        have hv : (0xE0 + c / 4096 - 0xE0) * 4096 + (0x80 + c / 64 % 64 - 0x80) * 64 +
            (0x80 + c % 64 - 0x80) = c := by omega
        rw [hv, if_pos (⟨by omega, hsur⟩ : 0x800 ≤ c ∧ (c < 0xD800 ∨ 0xE000 ≤ c))]
      · rw [utf8EncodeChar, if_neg h1, if_neg h2, if_neg h3]
        simp only [List.cons_append, List.nil_append]
        simp only [utf8DecodeStep, utf8Step4]
        rw [if_neg (by omega : ¬(0xF0 + c / 262144 < 0x80)),
          if_neg (by omega : ¬(0xF0 + c / 262144 < 0xC2)),
          if_neg (by omega : ¬(0xF0 + c / 262144 < 0xE0)),
          if_neg (by omega : ¬(0xF0 + c / 262144 < 0xF0)),
          if_pos (by omega : 0xF0 + c / 262144 < 0xF5),
          if_pos (by omega : 0x80 ≤ 0x80 + c / 4096 % 64 ∧ 0x80 + c / 4096 % 64 < 0xC0 ∧
            0x80 ≤ 0x80 + c / 64 % 64 ∧ 0x80 + c / 64 % 64 < 0xC0 ∧
            0x80 ≤ 0x80 + c % 64 ∧ 0x80 + c % 64 < 0xC0)]
        have hv : (0xF0 + c / 262144 - 0xF0) * 262144 + (0x80 + c / 4096 % 64 - 0x80) * 4096 +
            (0x80 + c / 64 % 64 - 0x80) * 64 + (0x80 + c % 64 - 0x80) = c := by omega
        rw [hv, if_pos (⟨by omega, hlt⟩ : 0x10000 ≤ c ∧ c < 0x110000)]

/-- Every scalar encodes to at least one byte. -/
theorem utf8Encode_length_ge (s : List Nat) : s.length ≤ (utf8Encode s).length := by
  induction s with
  | nil => simp [utf8Encode]
  | cons c cs ih =>
    show cs.length + 1 ≤ (utf8EncodeChar c ++ utf8Encode cs).length
    rw [List.length_append]
    have h1 : 1 ≤ (utf8EncodeChar c).length := by
      cases hE : utf8EncodeChar c with
      | nil => exact absurd hE (utf8EncodeChar_ne_nil c)
      | cons a t => simp
    omega

/-- The decode loop inverts the encoding of a valid scalar sequence,
given at least one unit of fuel per scalar. -/
theorem utf8DecodeLoop_encode (s : List Nat) : ∀ fuel, (∀ c ∈ s, ValidScalar c) →
    s.length ≤ fuel → utf8DecodeLoop fuel (utf8Encode s) = some s := by
  induction s with
  | nil =>
    intro fuel _ _
    cases fuel <;> rfl
  | cons c cs ih =>
    intro fuel h hf
    have hc := h c (List.mem_cons_self c cs)
    have hcs := fun x hx => h x (List.mem_cons_of_mem c hx)
    cases fuel with
    | zero =>
      rw [List.length_cons] at hf
      omega
    | succ fuel1 =>
      have hf1 : cs.length ≤ fuel1 := by
        rw [List.length_cons] at hf
        omega
      have hstep := utf8DecodeStep_encodeChar c hc (utf8Encode cs)
      cases hE : utf8EncodeChar c with
      | nil => exact absurd hE (utf8EncodeChar_ne_nil c)
      | cons b bs =>
        rw [hE] at hstep
        show utf8DecodeLoop (fuel1 + 1) (utf8EncodeChar c ++ utf8Encode cs) = some (c :: cs)
        rw [hE]
        simp only [List.cons_append]
        simp only [utf8DecodeLoop]
        rw [← List.cons_append, hstep]
        dsimp only
        rw [ih fuel1 hcs hf1]
        rfl

/-- Round trip: strict UTF-8 decoding inverts UTF-8 encoding on
sequences of valid scalar values. -/
theorem utf8Decode?_utf8Encode (s : List Nat) (h : ∀ c ∈ s, ValidScalar c) :
    utf8Decode? (utf8Encode s) = some s := by
  unfold utf8Decode?
  exact utf8DecodeLoop_encode s (utf8Encode s).length h (utf8Encode_length_ge s)

/-- C7: `decode_log_bytes` is the identity on valid UTF-8 input: for
every sequence of valid scalar values, decoding its UTF-8 encoding
returns exactly that sequence (including the empty one). -/
theorem decode_validUtf8_id (s : List Nat) (h : ∀ c ∈ s, ValidScalar c) :
    decodeLogBytes (utf8Encode s) = s := by
  cases s with
  | nil => rfl
  | cons c cs =>
    have hd := utf8Decode?_utf8Encode (c :: cs) h
    have hne : ¬((utf8Encode (c :: cs)).isEmpty = true) := by
      rw [List.isEmpty_eq_true]
      show utf8EncodeChar c ++ utf8Encode cs ≠ []
      intro hq
      exact utf8EncodeChar_ne_nil c (List.append_eq_nil.mp hq).1
    unfold decodeLogBytes
    rw [if_neg hne, hd]

/-- Witness for `decode_validUtf8_id` on `"hé€"` (scalars 104, 233,
8364). -/
theorem decode_validUtf8_id_witness :
    (∀ c ∈ [104, 233, 8364], ValidScalar c) ∧
    decodeLogBytes (utf8Encode [104, 233, 8364]) = [104, 233, 8364] :=
  ⟨by decide, decode_validUtf8_id [104, 233, 8364] (by decide)⟩

/-- C8: on a non-UTF-8 buffer beginning with the UTF-16LE BOM whose
remaining bytes decode as UTF-16LE code units (after dropping a trailing
odd byte), `decode_log_bytes` returns exactly the string built from
those code units — the BOM itself is stripped, not decoded. -/
theorem decode_utf16leBom (rest s : List Nat)
    (h8 : utf8Decode? (255 :: 254 :: rest) = none)
    (h16 : utf16Decode? (toU16LE (dropOddByte rest)) = some s) :
    decodeLogBytes (255 :: 254 :: rest) = s := by
  have hne : ¬((255 :: 254 :: rest).isEmpty = true) := by simp
  unfold decodeLogBytes
  rw [if_neg hne, h8]
  have hsb : stripBom (255 :: 254 :: rest) = rest := rfl
  dsimp only
  rw [hsb]
  by_cases hlen : rest.length < 2
  · rw [if_pos hlen]
    rcases rest with _ | ⟨a, _ | ⟨b, rest2⟩⟩
    · simp [dropOddByte, toU16LE, utf16Decode?] at h16
      exact h16.symm
    · simp [dropOddByte, toU16LE, utf16Decode?] at h16
      exact h16.symm
    · exfalso
      rw [List.length_cons, List.length_cons] at hlen
      omega
  · rw [if_neg hlen, h16]

/-- Witness for `decode_utf16leBom`: bytes `FF FE 41 00` decode to
`"A"`. -/
theorem decode_utf16leBom_witness :
    utf8Decode? [255, 254, 65, 0] = none ∧
    utf16Decode? (toU16LE (dropOddByte [65, 0])) = some [65] ∧
    decodeLogBytes [255, 254, 65, 0] = [65] :=
  ⟨by decide, by decide, decode_utf16leBom [65, 0] [65] (by decide) (by decide)⟩

end Otternel
